import Mathlib

/-!
Shallow embedding of the dynamic-array container implemented in
`src/vector.h` (template class `Vector<Type>`), together with proofs of
functional-correctness, error-handling and invariant properties of its
operations.

Modelling conventions:
* `size_t` counters are modelled as `Nat`; the iterator offset computed by
  `pos - begin()` (a `ptrdiff_t`) is modelled as `Int`.
* the raw buffer `value_type* values` is `Option (List α)`: `none` is the
  null pointer, `some buf` an allocation holding exactly `max_sz` slots.
  Slots produced by `new value_type[n]` start as `default`; the slots in
  `[size, capacity)` are never read by the modelled operations.
* a C++ method that throws is modelled as returning a pair of an
  `Except VecError` outcome and the post-call state of the object; the
  throwing paths of the source run before any member mutation, hence they
  return the container unchanged.
* iterators are positions in the buffer, represented by their offset from
  `begin()`; since `begin()` is the buffer base (or `end()` on an empty
  container, which is also offset 0), `pos - begin()` is that offset.
-/

set_option linter.unusedSectionVars false

namespace CppVector

/-- Error conditions reported (as exceptions) by `Vector` member functions. -/
inductive VecError : Type where
  | EmptyContainerError : VecError
  | IndexOutOfRangeError : VecError
  | IteratorOutOfBoundsError : VecError
  deriving DecidableEq, Repr

/-- State of a `Vector<Type>` object: fields `sz`, `max_sz`, `values`
(vector.h lines 26-28). -/
structure Vector (α : Type) : Type where
  sz : Nat
  max_sz : Nat
  values : Option (List α)
  deriving DecidableEq, Repr

/-- Default vector capacity, also used as the increment for allocated space
when adding new entries (vector.h line 34). -/
def min_capacity : Nat := 5

variable {α : Type} [Inhabited α]

/-- Member function `size()` (line 109). -/
def size (v : Vector α) : Nat := v.sz

/-- Member function `empty()` (line 113). -/
def empty (v : Vector α) : Bool := v.sz == 0

/-- Member function `capacity()` (line 218). -/
def capacity (v : Vector α) : Nat := v.max_sz

/-- Member function `clear()` (lines 118-120): only resets `sz`. -/
def clear (v : Vector α) : Vector α := { v with sz := 0 }

/-- Raw buffer read `values[index]` (no bounds check). -/
def readAt (v : Vector α) (index : Nat) : α :=
  (v.values.getD []).getD index default

/-- Logical contents of the container: the readable slots `[0, sz)`. -/
def toList (v : Vector α) : List α := (v.values.getD []).take v.sz

/-- Copy loop inside `reserve` (lines 146-151): `new_values[idx] = values[idx]`
for `idx` in `[0, k)`, in increasing order of `idx`. -/
def copyOldInto (old : List α) : List α → Nat → List α
  | newv, 0 => newv
  | newv, k + 1 => (copyOldInto old newv k).set k (old.getD k default)

/-- Member function `reserve(n)` (lines 122-155). -/
def reserve (v : Vector α) (n : Nat) : Vector α :=
  if n = 0 then v
  else if v.values.isSome ∧ n ≤ v.max_sz then v
  else
    let new_values : List α :=
      match v.values with
      | some old => copyOldInto old (List.replicate n default) v.sz
      | none => List.replicate n default
    { sz := v.sz, max_sz := n, values := some new_values }

/-- Member function `push_back(x)` (lines 180-189). -/
def push_back (v : Vector α) (x : α) : Vector α :=
  let v1 := if v.values.isNone ∨ v.max_sz ≤ v.sz
    then reserve v (v.sz + min_capacity)
    else v
  { v1 with
    values := v1.values.map (fun buf => buf.set v1.sz x)
    sz := v1.sz + 1 }

/-- Member function `pop_back()` (lines 195-200), paired with the post-call
state of the container. -/
def pop_back (v : Vector α) : Except VecError Unit × Vector α :=
  if empty v then (Except.error VecError.EmptyContainerError, v)
  else (Except.ok (), { v with sz := v.sz - 1 })

/-- Indexing member `operator[]` (lines 203-215), paired with the post-call
state (the function performs no member mutation on either path). -/
def opIndex (v : Vector α) (index : Nat) : Except VecError α × Vector α :=
  if v.sz ≤ index then (Except.error VecError.IndexOutOfRangeError, v)
  else (Except.ok ((v.values.getD []).getD index default), v)

/-- Shift loop inside `insert` (lines 278-279):
`for (auto i{sz}; i-- > current;) values[i+1] = values[i];` — the second
list argument is the buffer, the final argument the value of `i` before the
next `i-- > current` test. -/
def shiftUpLoop (current : Nat) : List α → Nat → List α
  | buf, 0 => buf
  | buf, i + 1 =>
    if current < i + 1 then
      shiftUpLoop current (buf.set (i + 1) (buf.getD i default)) i
    else buf

/-- Member function `insert(pos, val)` (lines 265-284); `pos` is the offset
`pos - begin()` of the given iterator; the returned `Nat` is the offset of
the iterator `values + current` that the source returns. -/
def insert (v : Vector α) (pos : Int) (val : α) : Except VecError Nat × Vector α :=
  if pos < 0 ∨ v.sz < pos.toNat then
    (Except.error VecError.IteratorOutOfBoundsError, v)
  else
    let current : Nat := pos.toNat
    let v1 := if v.max_sz ≤ v.sz
      then reserve v (if v.max_sz ≠ 0 then v.max_sz * 2 else min_capacity)
      else v
    (Except.ok current,
      { v1 with
        values := v1.values.map
          (fun buf => (shiftUpLoop current buf v1.sz).set current val)
        sz := v1.sz + 1 })

/-- Growth step of `insert` (lines 271-276), named for use in the proofs:
the state of the container right after the conditional `reserve` call. -/
def growForInsert (v : Vector α) : Vector α :=
  if v.max_sz ≤ v.sz
  then reserve v (if v.max_sz ≠ 0 then v.max_sz * 2 else min_capacity)
  else v

/-- Body of the shift loop inside `erase`, driven by the remaining iteration
count (`stop - i`, which the loop decreases by one per step): each step does
`values[i] = values[i+1]` and increments `i`. -/
def shiftDownGo : Nat → List α → Nat → List α
  | 0, buf, _ => buf
  | fuel + 1, buf, i => shiftDownGo fuel (buf.set i (buf.getD (i + 1) default)) (i + 1)

/-- Shift loop inside `erase` (lines 292-293):
`for (auto i{current}; i < sz - 1; ++i) values[i] = values[i+1];` — the loop
runs while `i < stop`, i.e. for exactly `stop - i` iterations. -/
def shiftDownLoop (buf : List α) (i stop : Nat) : List α :=
  shiftDownGo (stop - i) buf i

/-- Member function `erase(pos)` (lines 286-297); `pos` is the offset
`pos - begin()` of the given iterator. -/
def erase (v : Vector α) (pos : Int) : Except VecError Nat × Vector α :=
  if pos < 0 ∨ v.sz ≤ pos.toNat then
    (Except.error VecError.IteratorOutOfBoundsError, v)
  else
    let current : Nat := pos.toNat
    (Except.ok current,
      { v with
        values := v.values.map (fun buf => shiftDownLoop buf current (v.sz - 1))
        sz := v.sz - 1 })

/-- General constructor `Vector(size_type n)` (lines 41-48): member
assignments followed by `reserve(max_sz)`. -/
def mkVector (n : Nat) : Vector α :=
  reserve { sz := 0, max_sz := n, values := none } n

/-- Loop of `std::copy(init_list.begin(), init_list.end(), values)` (line 56):
writes the given elements to consecutive slots from the given position. -/
def copyAll : List α → List α → Nat → List α
  | [], buf, _ => buf
  | x :: xs, buf, i => copyAll xs (buf.set i x) (i + 1)

/-- Constructor from an explicit element sequence (lines 51-58). -/
def mkVectorOfList (ls : List α) : Vector α :=
  let v : Vector α := mkVector (Nat.max ls.length min_capacity)
  { v with values := v.values.map (fun buf => copyAll ls buf 0), sz := ls.length }

/-- Default constructor (lines 64-65). -/
def mkVectorDefault : Vector α := mkVector min_capacity

/-- Population loop of the copy constructor, of `operator=` and of
`shrink_to_fit`: `for (idx = 0; idx < k; idx++) push_back(src[idx])`; the
`src[idx]` reads go through the checked `operator[]`, whose check passes
because `idx < src.sz`, so they read the raw slot `values[idx]`. -/
def copyLoop (src : Vector α) : Vector α → Nat → Vector α
  | v, 0 => v
  | v, k + 1 => push_back (copyLoop src v k) (readAt src k)

/-- Copy constructor (lines 68-77): delegates to `Vector(other.size())`,
clears, then pushes the source elements in order. -/
def copyCtor (other : Vector α) : Vector α :=
  copyLoop other (clear (mkVector other.sz)) other.sz

/-- Copy assignment `operator=` (lines 91-107) for distinct objects (the
self-assignment guard compares object addresses and is the identity). -/
def assign (v other : Vector α) : Vector α :=
  copyLoop other (clear v) other.sz

/-- Member function `shrink_to_fit()` (lines 161-178): copy the container,
release the buffer and reset `sz`/`max_sz`, reserve exactly the saved size,
repopulate by pushing the saved elements. -/
def shrink_to_fit (v : Vector α) : Vector α :=
  let back := copyCtor v
  let v1 : Vector α := { sz := 0, max_sz := 0, values := none }
  copyLoop back (reserve v1 back.sz) back.sz

/-- Offset of the iterator returned by `end()` (lines 253-255):
`values + sz`, i.e. offset `sz` from `begin()`. -/
def endOfs (v : Vector α) : Int := (v.sz : Int)

/-- Sequence of `push_back` calls, first list element pushed first. -/
def pushList (v : Vector α) : List α → Vector α
  | [] => v
  | x :: xs => pushList (push_back v x) xs

/-- Representation invariant of reachable container states: the logical size
fits in the capacity and the buffer, when allocated, has exactly `max_sz`
slots (a null buffer forces `max_sz = 0`). -/
def Inv (v : Vector α) : Prop :=
  v.sz ≤ v.max_sz ∧ (v.values.getD []).length = v.max_sz

/-- Invariant exactly as the specification states it: `size ≤ capacity`, and
the buffer is non-null whenever the capacity is positive. -/
def WfClaim (v : Vector α) : Prop :=
  v.sz ≤ v.max_sz ∧ (0 < v.max_sz → v.values.isSome = true)

instance (v : Vector α) : Decidable (Inv v) :=
  decidable_of_iff (v.sz ≤ v.max_sz ∧ (v.values.getD []).length = v.max_sz) Iff.rfl

instance (v : Vector α) : Decidable (WfClaim v) :=
  decidable_of_iff (v.sz ≤ v.max_sz ∧ (0 < v.max_sz → v.values.isSome = true)) Iff.rfl

/-! Helper lemmas about list reads and writes. -/

theorem getD_set_self (l : List α) (i : Nat) (a d : α) (h : i < l.length) :
    (l.set i a).getD i d = a := by
  induction l generalizing i with
  | nil => simp at h
  | cons b t ih =>
    cases i with
    | zero => rfl
    | succ n => exact ih n (Nat.lt_of_succ_lt_succ h)

theorem getD_set_ne (l : List α) (i j : Nat) (a d : α) (h : i ≠ j) :
    (l.set i a).getD j d = l.getD j d := by
  induction l generalizing i j with
  | nil => rfl
  | cons b t ih =>
    cases i with
    | zero =>
      cases j with
      | zero => exact absurd rfl h
      | succ m => rfl
    | succ n =>
      cases j with
      | zero => rfl
      | succ m => exact ih n m (fun e => h (by rw [e]))

theorem set_oob (l : List α) (i : Nat) (a : α) (h : l.length ≤ i) : l.set i a = l := by
  induction l generalizing i with
  | nil => rfl
  | cons b t ih =>
    cases i with
    | zero => simp at h
    | succ n =>
      simp only [List.set]
      rw [ih n (Nat.le_of_succ_le_succ h)]

theorem getD_oob (l : List α) (j : Nat) (d : α) (h : l.length ≤ j) : l.getD j d = d := by
  induction l generalizing j with
  | nil => rfl
  | cons b t ih =>
    cases j with
    | zero => simp at h
    | succ m => exact ih m (Nat.le_of_succ_le_succ h)

theorem getD_take_lt (l : List α) (k j : Nat) (d : α) (h : j < k) :
    (l.take k).getD j d = l.getD j d := by
  induction l generalizing k j with
  | nil => cases k <;> rfl
  | cons b t ih =>
    cases k with
    | zero => exact absurd h (Nat.not_lt_zero j)
    | succ n =>
      cases j with
      | zero => rfl
      | succ m => exact ih n m (Nat.lt_of_succ_lt_succ h)

theorem getD_append_lt (l₁ l₂ : List α) (j : Nat) (d : α) (h : j < l₁.length) :
    (l₁ ++ l₂).getD j d = l₁.getD j d := by
  induction l₁ generalizing j with
  | nil => simp at h
  | cons b t ih =>
    cases j with
    | zero => rfl
    | succ m => exact ih m (Nat.lt_of_succ_lt_succ h)

theorem getD_append_self (l₁ l₂ : List α) (d : α) :
    (l₁ ++ l₂).getD l₁.length d = l₂.getD 0 d := by
  induction l₁ with
  | nil => rfl
  | cons b t ih => exact ih

theorem getD_eq_get (l : List α) (j : Nat) (d : α) (h : j < l.length) :
    l.getD j d = l.get ⟨j, h⟩ := by
  induction l generalizing j with
  | nil => simp at h
  | cons b t ih =>
    cases j with
    | zero => rfl
    | succ m => exact ih m (Nat.lt_of_succ_lt_succ h)

theorem take_succ_getD (l : List α) (k : Nat) (d : α) (h : k < l.length) :
    l.take (k + 1) = l.take k ++ [l.getD k d] := by
  induction l generalizing k with
  | nil => simp at h
  | cons b t ih =>
    cases k with
    | zero => rfl
    | succ m =>
      have hm := ih m (Nat.lt_of_succ_lt_succ h)
      show b :: List.take (m + 1) t = b :: (List.take m t ++ [t.getD m d])
      rw [hm]

/-! Lemmas about the copy loop of `reserve`. -/

theorem copyOldInto_length (old newv : List α) (k : Nat) :
    (copyOldInto old newv k).length = newv.length := by
  induction k with
  | zero => rfl
  | succ n ih => simpa [copyOldInto] using ih

theorem copyOldInto_getD (old newv : List α) (k j : Nat) :
    (copyOldInto old newv k).getD j default =
      if j < k ∧ j < newv.length then old.getD j default
      else newv.getD j default := by
  induction k with
  | zero => rw [if_neg (by omega)]; rfl
  | succ n ih =>
    show ((copyOldInto old newv n).set n (old.getD n default)).getD j default = _
    by_cases hj : n = j
    · subst hj
      by_cases hlen : n < newv.length
      · rw [getD_set_self _ _ _ _ (by rw [copyOldInto_length]; exact hlen)]
        rw [if_pos ⟨Nat.lt_succ_self n, hlen⟩]
      · rw [set_oob _ _ _ (by rw [copyOldInto_length]; omega), ih,
          if_neg (by omega), if_neg (by omega)]
    · rw [getD_set_ne _ _ _ _ _ hj, ih]
      by_cases h1 : j < n ∧ j < newv.length
      · rw [if_pos h1, if_pos ⟨by omega, h1.2⟩]
      · rw [if_neg h1, if_neg (by omega)]

/-! Lemmas about the element-shifting loops of `insert` and `erase`. -/

theorem shiftUpLoop_length (current : Nat) (buf : List α) (n : Nat) :
    (shiftUpLoop current buf n).length = buf.length := by
  induction n generalizing buf with
  | zero => rfl
  | succ m ih =>
    simp only [shiftUpLoop]
    split
    · rw [ih, List.length_set]
    · rfl

theorem shiftUpLoop_getD (current : Nat) (buf : List α) (n : Nat) (hn : n < buf.length)
    (j : Nat) :
    (shiftUpLoop current buf n).getD j default =
      if current < j ∧ j ≤ n then buf.getD (j - 1) default
      else buf.getD j default := by
  induction n generalizing buf with
  | zero =>
    simp only [shiftUpLoop]
    rw [if_neg (by omega)]
  | succ m ih =>
    simp only [shiftUpLoop]
    split
    · next hc =>
      rw [ih (buf.set (m + 1) (buf.getD m default)) (by rw [List.length_set]; omega)]
      by_cases h1 : current < j ∧ j ≤ m
      · rw [if_pos h1, if_pos ⟨h1.1, by omega⟩, getD_set_ne _ _ _ _ _ (by omega)]
      · by_cases h2 : j = m + 1
        · subst h2
          rw [if_neg h1, getD_set_self _ _ _ _ hn, if_pos ⟨hc, Nat.le_refl _⟩,
            Nat.add_sub_cancel]
        · rw [if_neg h1, getD_set_ne _ _ _ _ _ (by omega), if_neg (by omega)]
    · next hc =>
      rw [if_neg (by omega)]

theorem shiftDownLoop_step (buf : List α) (i stop : Nat) (h : i < stop) :
    shiftDownLoop buf i stop =
      shiftDownLoop (buf.set i (buf.getD (i + 1) default)) (i + 1) stop := by
  obtain ⟨k, hk⟩ : ∃ k, stop - i = k + 1 := ⟨stop - i - 1, by omega⟩
  rw [shiftDownLoop, shiftDownLoop, hk, show stop - (i + 1) = k by omega]
  rfl

theorem shiftDownLoop_base (buf : List α) (i stop : Nat) (h : ¬ i < stop) :
    shiftDownLoop buf i stop = buf := by
  rw [shiftDownLoop, show stop - i = 0 by omega]
  rfl

theorem shiftDownLoop_length (buf : List α) (i stop : Nat) :
    (shiftDownLoop buf i stop).length = buf.length := by
  by_cases h : i < stop
  · rw [shiftDownLoop_step _ _ _ h, shiftDownLoop_length _ _ _, List.length_set]
  · rw [shiftDownLoop_base _ _ _ h]
termination_by stop - i

theorem shiftDownLoop_getD (buf : List α) (i stop : Nat) (hstop : stop ≤ buf.length)
    (j : Nat) :
    (shiftDownLoop buf i stop).getD j default =
      if i ≤ j ∧ j < stop then buf.getD (j + 1) default
      else buf.getD j default := by
  by_cases h : i < stop
  · rw [shiftDownLoop_step _ _ _ h,
      shiftDownLoop_getD _ _ _ (by rw [List.length_set]; exact hstop) j]
    by_cases h1 : i + 1 ≤ j ∧ j < stop
    · rw [if_pos h1, if_pos ⟨by omega, h1.2⟩, getD_set_ne _ _ _ _ _ (by omega)]
    · by_cases h2 : j = i
      · subst h2
        rw [if_neg h1, getD_set_self _ _ _ _ (by omega), if_pos ⟨Nat.le_refl _, h⟩]
      · rw [if_neg h1, getD_set_ne _ _ _ _ _ (by omega), if_neg (by omega)]
  · rw [shiftDownLoop_base _ _ _ h, if_neg (by omega)]
termination_by stop - i

/-! Basic facts about the invariant and the container views. -/

theorem readAt_eq (v : Vector α) (buf : List α) (hv : v.values = some buf) (j : Nat) :
    readAt v j = buf.getD j default := by
  rw [readAt, hv]
  rfl

theorem inv_some (v : Vector α) (h : Inv v) (hpos : 0 < v.max_sz) :
    ∃ buf, v.values = some buf ∧ buf.length = v.max_sz := by
  cases hv : v.values with
  | none =>
    have h2 := h.2
    rw [hv] at h2
    simp at h2
    omega
  | some buf =>
    refine ⟨buf, rfl, ?_⟩
    have h2 := h.2
    rw [hv] at h2
    simpa using h2

theorem toList_length (v : Vector α) (h : Inv v) : (toList v).length = v.sz := by
  rw [toList, List.length_take, h.2]
  exact Nat.min_eq_left h.1

theorem toList_getD (v : Vector α) (j : Nat) (hj : j < v.sz) :
    (toList v).getD j default = readAt v j := by
  rw [toList, getD_take_lt _ _ _ _ hj, readAt]

theorem toList_nil (v : Vector α) (h : v.sz = 0) : toList v = [] := by
  rw [toList, h]
  rfl

theorem toList_eq_of_reads (v w : Vector α) (hv : Inv v) (hw : Inv w) (hsz : w.sz = v.sz)
    (hpt : ∀ j, j < v.sz → readAt w j = readAt v j) : toList w = toList v := by
  apply List.ext_get
  · rw [toList_length _ hw, toList_length _ hv, hsz]
  · intro n h1 h2
    rw [← getD_eq_get _ _ default h1, ← getD_eq_get _ _ default h2]
    have hn : n < v.sz := by rw [← toList_length _ hv]; exact h2
    rw [toList_getD _ _ (by omega : n < w.sz), toList_getD _ _ hn, hpt n hn]

/-! Lemmas about `reserve`. -/

theorem reserve_sz (v : Vector α) (n : Nat) : (reserve v n).sz = v.sz := by
  unfold reserve
  split
  · rfl
  · split
    · rfl
    · rfl

theorem reserve_zero (v : Vector α) : reserve v 0 = v := by
  unfold reserve
  rw [if_pos rfl]

theorem reserve_of_enough (v : Vector α) (n : Nat) (h0 : n ≠ 0)
    (h : v.values.isSome = true ∧ n ≤ v.max_sz) : reserve v n = v := by
  unfold reserve
  rw [if_neg h0, if_pos h]

theorem reserve_alloc_max (v : Vector α) (n : Nat) (h0 : n ≠ 0)
    (h : ¬(v.values.isSome = true ∧ n ≤ v.max_sz)) : (reserve v n).max_sz = n := by
  unfold reserve
  rw [if_neg h0, if_neg h]

theorem reserve_values_alloc (v : Vector α) (n : Nat) (h0 : n ≠ 0)
    (h : ¬(v.values.isSome = true ∧ n ≤ v.max_sz)) :
    (reserve v n).values = some (match v.values with
      | some old => copyOldInto old (List.replicate n default) v.sz
      | none => List.replicate n default) := by
  unfold reserve
  rw [if_neg h0, if_neg h]

theorem reserve_max_ge (v : Vector α) (n : Nat) (h0 : n ≠ 0) : n ≤ (reserve v n).max_sz := by
  by_cases h : v.values.isSome = true ∧ n ≤ v.max_sz
  · rw [reserve_of_enough v n h0 h]
    exact h.2
  · rw [reserve_alloc_max v n h0 h]

theorem reserve_isSome (v : Vector α) (n : Nat) (h0 : n ≠ 0) :
    (reserve v n).values.isSome = true := by
  by_cases h : v.values.isSome = true ∧ n ≤ v.max_sz
  · rw [reserve_of_enough v n h0 h]
    exact h.1
  · rw [reserve_values_alloc v n h0 h]
    rfl

theorem reserve_readAt (v : Vector α) (n : Nat) (h : Inv v) (j : Nat) (hj : j < v.sz) :
    readAt (reserve v n) j = readAt v j := by
  by_cases h0 : n = 0
  · rw [h0, reserve_zero]
  by_cases he : v.values.isSome = true ∧ n ≤ v.max_sz
  · rw [reserve_of_enough v n h0 he]
  · rw [readAt, reserve_values_alloc v n h0 he, Option.getD_some]
    cases hv : v.values with
    | none =>
      have h1 := h.1
      have h2 := h.2
      rw [hv] at h2
      simp at h2
      omega
    | some old =>
      have h1 := h.1
      have h2 := h.2
      rw [hv] at h2
      simp only [Option.getD_some] at h2
      have hmax : ¬ n ≤ v.max_sz := fun hle => he ⟨by rw [hv]; rfl, hle⟩
      show (copyOldInto old (List.replicate n default) v.sz).getD j default = readAt v j
      rw [copyOldInto_getD,
        if_pos ⟨hj, by rw [List.length_replicate]; omega⟩, readAt_eq v old hv]

theorem reserve_inv (v : Vector α) (n : Nat) (h : Inv v) : Inv (reserve v n) := by
  by_cases h0 : n = 0
  · rw [h0, reserve_zero]
    exact h
  by_cases he : v.values.isSome = true ∧ n ≤ v.max_sz
  · rw [reserve_of_enough v n h0 he]
    exact h
  · refine ⟨?_, ?_⟩
    · rw [reserve_sz, reserve_alloc_max v n h0 he]
      cases hv : v.values with
      | none =>
        have h1 := h.1
        have h2 := h.2
        rw [hv] at h2
        simp at h2
        omega
      | some old =>
        have h1 := h.1
        have hmax : ¬ n ≤ v.max_sz := fun hle => he ⟨by rw [hv]; rfl, hle⟩
        omega
    · rw [reserve_values_alloc v n h0 he, reserve_alloc_max v n h0 he, Option.getD_some]
      cases hv : v.values with
      | none => simp
      | some old =>
        show (copyOldInto old (List.replicate n default) v.sz).length = n
        rw [copyOldInto_length, List.length_replicate]

/-! Lemmas about `push_back`. -/

theorem push_back_grow (v : Vector α) (x : α) (h : v.values.isNone = true ∨ v.max_sz ≤ v.sz) :
    push_back v x =
      { reserve v (v.sz + min_capacity) with
        values := (reserve v (v.sz + min_capacity)).values.map
          (fun buf => buf.set (reserve v (v.sz + min_capacity)).sz x)
        sz := (reserve v (v.sz + min_capacity)).sz + 1 } := by
  unfold push_back
  rw [if_pos h]

theorem push_back_no_grow (v : Vector α) (x : α)
    (h : ¬(v.values.isNone = true ∨ v.max_sz ≤ v.sz)) :
    push_back v x =
      { v with values := v.values.map (fun buf => buf.set v.sz x), sz := v.sz + 1 } := by
  unfold push_back
  rw [if_neg h]

theorem store_spec (v1 w : Vector α) (x : α) (h : Inv v1) (hroom : v1.sz < v1.max_sz)
    (hw : w = { v1 with values := v1.values.map (fun buf => buf.set v1.sz x), sz := v1.sz + 1 }) :
    Inv w ∧ w.sz = v1.sz + 1 ∧ w.max_sz = v1.max_sz ∧
    (∀ j, j < v1.sz → readAt w j = readAt v1 j) ∧ readAt w v1.sz = x := by
  obtain ⟨buf, hv, hlen⟩ := inv_some v1 h (Nat.lt_of_le_of_lt (Nat.zero_le _) hroom)
  have hwv : w.values = some (buf.set v1.sz x) := by
    rw [hw]
    show v1.values.map _ = _
    rw [hv]
    rfl
  have hwsz : w.sz = v1.sz + 1 := by rw [hw]
  have hwmax : w.max_sz = v1.max_sz := by rw [hw]
  refine ⟨⟨?_, ?_⟩, hwsz, hwmax, ?_, ?_⟩
  · rw [hwsz, hwmax]
    omega
  · rw [hwv, hwmax, Option.getD_some, List.length_set]
    exact hlen
  · intro j hj
    rw [readAt_eq w _ hwv, readAt_eq v1 buf hv, getD_set_ne _ _ _ _ _ (by omega)]
  · rw [readAt_eq w _ hwv, getD_set_self _ _ _ _ (by omega)]

theorem push_back_spec (v : Vector α) (x : α) (h : Inv v) :
    Inv (push_back v x) ∧ (push_back v x).sz = v.sz + 1 ∧
    (∀ j, j < v.sz → readAt (push_back v x) j = readAt v j) ∧
    readAt (push_back v x) v.sz = x := by
  have hpos : 0 < min_capacity := by decide
  by_cases hg : v.values.isNone = true ∨ v.max_sz ≤ v.sz
  · have h1 : Inv (reserve v (v.sz + min_capacity)) := reserve_inv _ _ h
    have hsz1 : (reserve v (v.sz + min_capacity)).sz = v.sz := reserve_sz _ _
    have hmax1 : v.sz + min_capacity ≤ (reserve v (v.sz + min_capacity)).max_sz :=
      reserve_max_ge _ _ (by omega)
    have hroom : (reserve v (v.sz + min_capacity)).sz < (reserve v (v.sz + min_capacity)).max_sz := by
      omega
    obtain ⟨hi, hs, hm, hr, hl⟩ :=
      store_spec (reserve v (v.sz + min_capacity)) (push_back v x) x h1 hroom
        (push_back_grow v x hg)
    rw [hsz1] at hs hl
    refine ⟨hi, hs, fun j hj => ?_, hl⟩
    rw [hr j (by omega), reserve_readAt v _ h j hj]
  · have hroom : v.sz < v.max_sz := by
      rw [not_or] at hg
      omega
    obtain ⟨hi, hs, hm, hr, hl⟩ :=
      store_spec v (push_back v x) x h hroom (push_back_no_grow v x hg)
    exact ⟨hi, hs, hr, hl⟩

theorem push_back_toList (v : Vector α) (x : α) (h : Inv v) :
    toList (push_back v x) = toList v ++ [x] := by
  obtain ⟨hi, hs, hr, hl⟩ := push_back_spec v x h
  apply List.ext_get
  · rw [toList_length _ hi, hs, List.length_append, toList_length _ h]
    rfl
  · intro n h1 h2
    rw [← getD_eq_get _ _ default h1, ← getD_eq_get _ _ default h2]
    have hn : n < v.sz + 1 := by
      rw [← hs, ← toList_length _ hi]
      exact h1
    by_cases hlt : n < v.sz
    · rw [toList_getD _ _ (by omega), hr n hlt,
        getD_append_lt _ _ _ _ (by rw [toList_length _ h]; exact hlt), toList_getD _ _ hlt]
    · have hne : n = v.sz := by omega
      subst hne
      rw [toList_getD _ _ (by omega), hl]
      have hlv : (toList v).length = v.sz := toList_length _ h
      rw [← hlv, getD_append_self]
      rfl

theorem push_back_cap_no_grow (v : Vector α) (x : α) (hs : v.values.isSome = true)
    (hroom : v.sz < v.max_sz) :
    (push_back v x).max_sz = v.max_sz ∧ (push_back v x).values.isSome = true ∧
    (push_back v x).sz = v.sz + 1 := by
  obtain ⟨buf, hv⟩ := Option.isSome_iff_exists.mp hs
  have hng : ¬(v.values.isNone = true ∨ v.max_sz ≤ v.sz) := by
    rw [not_or, hv]
    exact ⟨by simp, by omega⟩
  rw [push_back_no_grow v x hng]
  refine ⟨rfl, ?_, rfl⟩
  show (v.values.map _).isSome = true
  rw [hv]
  rfl

/-! Lemmas about the constructors and `pushList`. -/

theorem mkVector_zero : (mkVector 0 : Vector α) = { sz := 0, max_sz := 0, values := none } := by
  unfold mkVector
  exact reserve_zero _

theorem mkVector_sz (n : Nat) : (mkVector n : Vector α).sz = 0 := by
  unfold mkVector
  rw [reserve_sz]

theorem mkVector_max (n : Nat) : (mkVector n : Vector α).max_sz = n := by
  unfold mkVector
  by_cases h0 : n = 0
  · subst h0
    rw [reserve_zero]
  · rw [reserve_alloc_max _ _ h0 (by simp)]

theorem mkVector_inv (n : Nat) : Inv (mkVector n : Vector α) := by
  unfold mkVector
  by_cases h0 : n = 0
  · subst h0
    rw [reserve_zero]
    exact ⟨Nat.le_refl 0, rfl⟩
  · refine ⟨?_, ?_⟩
    · rw [reserve_sz]
      exact Nat.zero_le _
    · rw [reserve_values_alloc _ _ h0 (by simp), reserve_alloc_max _ _ h0 (by simp),
        Option.getD_some]
      simp

theorem mkVector_toList (n : Nat) : toList (mkVector n : Vector α) = [] :=
  toList_nil _ (mkVector_sz n)

theorem mkVector_isSome (n : Nat) (h : n ≠ 0) : (mkVector n : Vector α).values.isSome = true := by
  unfold mkVector
  exact reserve_isSome _ _ h

theorem pushList_spec (l : List α) : ∀ v : Vector α, Inv v →
    Inv (pushList v l) ∧ (pushList v l).sz = v.sz + l.length ∧
    toList (pushList v l) = toList v ++ l := by
  induction l with
  | nil =>
    intro v h
    exact ⟨h, rfl, by simp [pushList]⟩
  | cons x xs ih =>
    intro v h
    obtain ⟨hi, hs, hr, hl⟩ := push_back_spec v x h
    obtain ⟨hi2, hs2, ht2⟩ := ih (push_back v x) hi
    refine ⟨hi2, ?_, ?_⟩
    · show (pushList (push_back v x) xs).sz = v.sz + (x :: xs).length
      rw [hs2, hs]
      simp
      omega
    · show toList (pushList (push_back v x) xs) = toList v ++ (x :: xs)
      rw [ht2, push_back_toList v x h]
      simp

/-! Lemmas about `insert`. -/

theorem growForInsert_facts (v : Vector α) (h : Inv v) :
    Inv (growForInsert v) ∧ (growForInsert v).sz = v.sz ∧
    v.sz < (growForInsert v).max_sz ∧
    (∀ j, j < v.sz → readAt (growForInsert v) j = readAt v j) := by
  unfold growForInsert
  split
  · next hle =>
    have hsz : v.sz = v.max_sz := Nat.le_antisymm h.1 hle
    have hmc : min_capacity = 5 := rfl
    by_cases hmz : v.max_sz ≠ 0
    · rw [if_pos hmz]
      have hn0 : v.max_sz * 2 ≠ 0 := by omega
      have hge := reserve_max_ge v (v.max_sz * 2) hn0
      exact ⟨reserve_inv _ _ h, reserve_sz _ _, by omega,
        fun j hj => reserve_readAt _ _ h j hj⟩
    · rw [if_neg hmz]
      have hn0 : min_capacity ≠ 0 := by omega
      have hge := reserve_max_ge v min_capacity hn0
      have hmz' : v.max_sz = 0 := by omega
      exact ⟨reserve_inv _ _ h, reserve_sz _ _, by omega,
        fun j hj => reserve_readAt _ _ h j hj⟩
  · next hgt =>
    exact ⟨h, rfl, by omega, fun j hj => rfl⟩

theorem insert_ok_eq (v : Vector α) (x : α) (p : Nat) (hp : p ≤ v.sz) :
    insert v (p : Int) x =
      (Except.ok p,
        { growForInsert v with
          values := (growForInsert v).values.map
            (fun buf => (shiftUpLoop p buf (growForInsert v).sz).set p x)
          sz := (growForInsert v).sz + 1 }) := by
  have hguard : ¬((p : Int) < 0 ∨ v.sz < (Int.toNat (p : Int))) := by
    rw [Int.toNat_natCast]
    omega
  unfold insert growForInsert
  rw [if_neg hguard, Int.toNat_natCast]

theorem insert_spec (v : Vector α) (x : α) (p : Nat) (h : Inv v) (hp : p ≤ v.sz) :
    (insert v (p : Int) x).1 = Except.ok p ∧
    Inv (insert v (p : Int) x).2 ∧
    (insert v (p : Int) x).2.sz = v.sz + 1 ∧
    (∀ j, j < p → readAt (insert v (p : Int) x).2 j = readAt v j) ∧
    readAt (insert v (p : Int) x).2 p = x ∧
    (∀ j, p ≤ j → j < v.sz → readAt (insert v (p : Int) x).2 (j + 1) = readAt v j) := by
  obtain ⟨hgi, hgs, hgroom, hgr⟩ := growForInsert_facts v h
  have heq := insert_ok_eq v x p hp
  obtain ⟨buf, hbv, hblen⟩ := inv_some (growForInsert v) hgi (by omega)
  have hwv : (insert v (p : Int) x).2.values =
      some ((shiftUpLoop p buf (growForInsert v).sz).set p x) := by
    rw [heq]
    show (growForInsert v).values.map _ = _
    rw [hbv]
    rfl
  have hwsz : (insert v (p : Int) x).2.sz = v.sz + 1 := by
    rw [heq]
    show (growForInsert v).sz + 1 = v.sz + 1
    rw [hgs]
  have hwmax : (insert v (p : Int) x).2.max_sz = (growForInsert v).max_sz := by
    rw [heq]
  have hlen2 : (shiftUpLoop p buf (growForInsert v).sz).length = buf.length :=
    shiftUpLoop_length _ _ _
  have hszlt : (growForInsert v).sz < buf.length := by
    rw [hblen, hgs]
    omega
  refine ⟨by rw [heq], ⟨?_, ?_⟩, hwsz, ?_, ?_, ?_⟩
  · rw [hwsz, hwmax]
    omega
  · rw [hwv, hwmax, Option.getD_some, List.length_set, hlen2, hblen]
  · intro j hj
    rw [readAt_eq _ _ hwv, getD_set_ne _ _ _ _ _ (by omega),
      shiftUpLoop_getD _ _ _ hszlt, if_neg (by omega), ← readAt_eq _ _ hbv, hgr j (by omega)]
  · rw [readAt_eq _ _ hwv, getD_set_self _ _ _ _ (by rw [hlen2]; omega)]
  · intro j hjp hjs
    rw [readAt_eq _ _ hwv, getD_set_ne _ _ _ _ _ (by omega),
      shiftUpLoop_getD _ _ _ hszlt, if_pos ⟨by omega, by omega⟩]
    have hj1 : j + 1 - 1 = j := by omega
    rw [hj1, ← readAt_eq _ _ hbv, hgr j (by omega)]

/-! Lemmas about `erase`. -/

theorem erase_ok_eq (v : Vector α) (p : Nat) (hp : p < v.sz) :
    erase v (p : Int) =
      (Except.ok p,
        { v with
          values := v.values.map (fun buf => shiftDownLoop buf p (v.sz - 1))
          sz := v.sz - 1 }) := by
  have hguard : ¬((p : Int) < 0 ∨ v.sz ≤ (Int.toNat (p : Int))) := by
    rw [Int.toNat_natCast]
    omega
  unfold erase
  rw [if_neg hguard, Int.toNat_natCast]

theorem erase_spec (v : Vector α) (p : Nat) (h : Inv v) (hp : p < v.sz) :
    (erase v (p : Int)).1 = Except.ok p ∧
    Inv (erase v (p : Int)).2 ∧
    (erase v (p : Int)).2.sz = v.sz - 1 ∧
    (erase v (p : Int)).2.max_sz = v.max_sz ∧
    (∀ j, j < p → readAt (erase v (p : Int)).2 j = readAt v j) ∧
    (∀ j, p ≤ j → j < v.sz - 1 → readAt (erase v (p : Int)).2 j = readAt v (j + 1)) := by
  have heq := erase_ok_eq v p hp
  have h1 := h.1
  obtain ⟨buf, hbv, hblen⟩ := inv_some v h (by omega)
  have hwv : (erase v (p : Int)).2.values = some (shiftDownLoop buf p (v.sz - 1)) := by
    rw [heq]
    show v.values.map _ = _
    rw [hbv]
    rfl
  have hwsz : (erase v (p : Int)).2.sz = v.sz - 1 := by
    rw [heq]
  have hwmax : (erase v (p : Int)).2.max_sz = v.max_sz := by
    rw [heq]
  have hstop : v.sz - 1 ≤ buf.length := by
    rw [hblen]
    omega
  refine ⟨by rw [heq], ⟨?_, ?_⟩, hwsz, hwmax, ?_, ?_⟩
  · rw [hwsz, hwmax]
    omega
  · rw [hwv, hwmax, Option.getD_some, shiftDownLoop_length, hblen]
  · intro j hj
    rw [readAt_eq _ _ hwv, shiftDownLoop_getD _ _ _ hstop, if_neg (by omega),
      ← readAt_eq _ _ hbv]
  · intro j hjp hjs
    rw [readAt_eq _ _ hwv, shiftDownLoop_getD _ _ _ hstop, if_pos ⟨hjp, hjs⟩,
      ← readAt_eq _ _ hbv]

/-! Lemmas about the copy loop, the copy constructor and `shrink_to_fit`. -/

theorem copyLoop_spec (src : Vector α) (hsrc : Inv src) (k : Nat) :
    ∀ v : Vector α, Inv v → k ≤ src.sz →
      Inv (copyLoop src v k) ∧ (copyLoop src v k).sz = v.sz + k ∧
      toList (copyLoop src v k) = toList v ++ (toList src).take k := by
  induction k with
  | zero =>
    intro v h _
    exact ⟨h, rfl, by simp [copyLoop]⟩
  | succ n ih =>
    intro v h hk
    obtain ⟨hi, hs, ht⟩ := ih v h (by omega)
    obtain ⟨hpi, hps, hpr, hpl⟩ := push_back_spec (copyLoop src v n) (readAt src n) hi
    refine ⟨hpi, ?_, ?_⟩
    · show (push_back (copyLoop src v n) (readAt src n)).sz = v.sz + (n + 1)
      rw [hps, hs]
      omega
    · show toList (push_back (copyLoop src v n) (readAt src n)) = toList v ++ (toList src).take (n + 1)
      rw [push_back_toList _ _ hi, ht,
        take_succ_getD (toList src) n default (by rw [toList_length _ hsrc]; omega),
        toList_getD src n (by omega), List.append_assoc]

theorem copyLoop_cap (src : Vector α) (k : Nat) :
    ∀ v : Vector α, v.values.isSome = true → v.sz + k ≤ v.max_sz →
      (copyLoop src v k).max_sz = v.max_sz ∧ (copyLoop src v k).values.isSome = true ∧
      (copyLoop src v k).sz = v.sz + k := by
  induction k with
  | zero =>
    intro v hs _
    exact ⟨rfl, hs, rfl⟩
  | succ n ih =>
    intro v hs hle
    obtain ⟨hm, hsome, hsz⟩ := ih v hs (by omega)
    have hroom : (copyLoop src v n).sz < (copyLoop src v n).max_sz := by omega
    obtain ⟨hm2, hsome2, hsz2⟩ :=
      push_back_cap_no_grow (copyLoop src v n) (readAt src n) hsome hroom
    refine ⟨?_, hsome2, ?_⟩
    · show (push_back (copyLoop src v n) (readAt src n)).max_sz = v.max_sz
      rw [hm2, hm]
    · show (push_back (copyLoop src v n) (readAt src n)).sz = v.sz + (n + 1)
      rw [hsz2, hsz]
      omega

theorem copyCtor_spec (v : Vector α) (h : Inv v) :
    Inv (copyCtor v) ∧ (copyCtor v).sz = v.sz ∧ (copyCtor v).max_sz = v.sz ∧
    toList (copyCtor v) = toList v := by
  have hmk : Inv (clear (mkVector v.sz) : Vector α) :=
    ⟨Nat.zero_le _, (mkVector_inv (α := α) v.sz).2⟩
  have hclsz : (clear (mkVector v.sz) : Vector α).sz = 0 := rfl
  have hcltl : toList (clear (mkVector v.sz) : Vector α) = [] := toList_nil _ rfl
  obtain ⟨hi, hs, ht⟩ := copyLoop_spec v h v.sz (clear (mkVector v.sz)) hmk (Nat.le_refl _)
  refine ⟨hi, ?_, ?_, ?_⟩
  · show (copyLoop v (clear (mkVector v.sz)) v.sz).sz = v.sz
    rw [hs, hclsz]
    omega
  · show (copyLoop v (clear (mkVector v.sz)) v.sz).max_sz = v.sz
    by_cases hz : v.sz = 0
    · rw [hz]
      show (clear (mkVector 0) : Vector α).max_sz = 0
      exact mkVector_max 0
    · obtain ⟨hm, _, _⟩ := copyLoop_cap v v.sz (clear (mkVector v.sz))
        (mkVector_isSome v.sz hz)
        (by show 0 + v.sz ≤ (mkVector v.sz : Vector α).max_sz; rw [mkVector_max]; omega)
      rw [hm]
      exact mkVector_max v.sz
  · show toList (copyLoop v (clear (mkVector v.sz)) v.sz) = toList v
    rw [ht, hcltl, List.nil_append, ← toList_length v h, List.take_length]

theorem shrink_to_fit_spec (v : Vector α) (h : Inv v) :
    Inv (shrink_to_fit v) ∧ (shrink_to_fit v).sz = v.sz ∧
    (shrink_to_fit v).max_sz = v.sz ∧ toList (shrink_to_fit v) = toList v := by
  obtain ⟨hbi, hbs, hbm, hbt⟩ := copyCtor_spec v h
  have heq : shrink_to_fit v =
      copyLoop (copyCtor v)
        (reserve { sz := 0, max_sz := 0, values := none } (copyCtor v).sz)
        (copyCtor v).sz := rfl
  have hinv0 : Inv (reserve ({ sz := 0, max_sz := 0, values := none } : Vector α) (copyCtor v).sz) :=
    reserve_inv _ _ ⟨Nat.le_refl 0, rfl⟩
  have hsz0 : (reserve ({ sz := 0, max_sz := 0, values := none } : Vector α) (copyCtor v).sz).sz = 0 :=
    reserve_sz _ _
  have htl0 : toList (reserve ({ sz := 0, max_sz := 0, values := none } : Vector α) (copyCtor v).sz) = [] :=
    toList_nil _ hsz0
  obtain ⟨hi, hs, ht⟩ := copyLoop_spec (copyCtor v) hbi (copyCtor v).sz _ hinv0 (Nat.le_refl _)
  refine ⟨by rw [heq]; exact hi, ?_, ?_, ?_⟩
  · rw [heq, hs, hsz0, hbs]
    omega
  · rw [heq]
    by_cases hz : (copyCtor v).sz = 0
    · rw [hz]
      show (reserve ({ sz := 0, max_sz := 0, values := none } : Vector α) 0).max_sz = v.sz
      rw [reserve_zero]
      show (0 : Nat) = v.sz
      omega
    · obtain ⟨hm, _, _⟩ := copyLoop_cap (copyCtor v) (copyCtor v).sz
        (reserve { sz := 0, max_sz := 0, values := none } (copyCtor v).sz)
        (reserve_isSome _ _ hz)
        (by rw [hsz0]; have := reserve_max_ge ({ sz := 0, max_sz := 0, values := none } : Vector α) (copyCtor v).sz hz; omega)
      rw [hm, reserve_alloc_max _ _ hz (by simp), hbs]
  · rw [heq, ht, htl0, List.nil_append, ← toList_length _ hbi, List.take_length, hbt]

/-! Preservation of the specification invariant `WfClaim` by every public
operation. -/

theorem wf_clear (v : Vector α) (h : WfClaim v) : WfClaim (clear v) :=
  ⟨Nat.zero_le _, h.2⟩

theorem wf_reserve (v : Vector α) (n : Nat) (h : WfClaim v) : WfClaim (reserve v n) := by
  by_cases h0 : n = 0
  · rw [h0, reserve_zero]
    exact h
  by_cases he : v.values.isSome = true ∧ n ≤ v.max_sz
  · rw [reserve_of_enough v n h0 he]
    exact h
  · refine ⟨?_, fun _ => reserve_isSome v n h0⟩
    rw [reserve_sz, reserve_alloc_max v n h0 he]
    by_cases hs : v.values.isSome = true
    · have hnle : ¬ n ≤ v.max_sz := fun hle => he ⟨hs, hle⟩
      have h1 := h.1
      omega
    · have hmz : v.max_sz = 0 := by
        by_contra hmz
        exact hs (h.2 (by omega))
      have h1 := h.1
      omega

theorem wf_push_back (v : Vector α) (x : α) : WfClaim (push_back v x) := by
  by_cases hg : v.values.isNone = true ∨ v.max_sz ≤ v.sz
  · rw [push_back_grow v x hg]
    have h5 : min_capacity = 5 := rfl
    have h0 : v.sz + min_capacity ≠ 0 := by omega
    constructor
    · show (reserve v (v.sz + min_capacity)).sz + 1 ≤ (reserve v (v.sz + min_capacity)).max_sz
      have hge := reserve_max_ge v _ h0
      have hsz := reserve_sz v (v.sz + min_capacity)
      omega
    · intro _
      show ((reserve v (v.sz + min_capacity)).values.map _).isSome = true
      obtain ⟨buf, hb⟩ := Option.isSome_iff_exists.mp (reserve_isSome v _ h0)
      rw [hb]
      rfl
  · rw [push_back_no_grow v x hg]
    rw [not_or] at hg
    constructor
    · show v.sz + 1 ≤ v.max_sz
      have h2 := hg.2
      omega
    · intro _
      show (v.values.map _).isSome = true
      have hs : v.values.isSome = true := by
        cases hv : v.values with
        | none => exact absurd (by rw [hv]; rfl) hg.1
        | some b => rfl
      obtain ⟨buf, hb⟩ := Option.isSome_iff_exists.mp hs
      rw [hb]
      rfl

theorem wf_pop_back (v : Vector α) (h : WfClaim v) : WfClaim (pop_back v).2 := by
  unfold pop_back
  split
  · exact h
  · exact ⟨by show v.sz - 1 ≤ v.max_sz; have := h.1; omega, h.2⟩

theorem wf_growForInsert (v : Vector α) (h : WfClaim v) :
    (growForInsert v).sz = v.sz ∧ v.sz < (growForInsert v).max_sz ∧
    (growForInsert v).values.isSome = true := by
  unfold growForInsert
  split
  · next hle =>
    by_cases hmz : v.max_sz ≠ 0
    · rw [if_pos hmz]
      have h0 : v.max_sz * 2 ≠ 0 := by omega
      refine ⟨reserve_sz _ _, ?_, reserve_isSome _ _ h0⟩
      have hge := reserve_max_ge v _ h0
      have h1 := h.1
      omega
    · rw [if_neg hmz]
      have h0 : min_capacity ≠ 0 := by decide
      refine ⟨reserve_sz _ _, ?_, reserve_isSome _ _ h0⟩
      have hge := reserve_max_ge v _ h0
      have h1 := h.1
      have h5 : min_capacity = 5 := rfl
      omega
  · next hgt =>
    exact ⟨rfl, by omega, h.2 (by omega)⟩

theorem wf_insert (v : Vector α) (p : Int) (x : α) (h : WfClaim v) : WfClaim (insert v p x).2 := by
  unfold insert
  split
  · exact h
  · obtain ⟨hgs, hgroom, hgsome⟩ := wf_growForInsert v h
    constructor
    · show (growForInsert v).sz + 1 ≤ (growForInsert v).max_sz
      omega
    · intro _
      show ((growForInsert v).values.map _).isSome = true
      obtain ⟨buf, hb⟩ := Option.isSome_iff_exists.mp hgsome
      rw [hb]
      rfl

theorem wf_erase (v : Vector α) (p : Int) (h : WfClaim v) : WfClaim (erase v p).2 := by
  unfold erase
  split
  · exact h
  · constructor
    · show v.sz - 1 ≤ v.max_sz
      have := h.1
      omega
    · intro hpos
      show (v.values.map _).isSome = true
      obtain ⟨buf, hb⟩ := Option.isSome_iff_exists.mp (h.2 hpos)
      rw [hb]
      rfl

theorem wf_mkVector (n : Nat) : WfClaim (mkVector n : Vector α) := by
  refine ⟨?_, fun hpos => ?_⟩
  · rw [mkVector_sz]
    exact Nat.zero_le _
  · exact mkVector_isSome n (by rw [mkVector_max] at hpos; omega)

theorem wf_mkVectorOfList (ls : List α) : WfClaim (mkVectorOfList ls) := by
  unfold mkVectorOfList
  constructor
  · show ls.length ≤ (mkVector (Nat.max ls.length min_capacity) : Vector α).max_sz
    rw [mkVector_max]
    exact Nat.le_max_left _ _
  · intro _
    show ((mkVector (Nat.max ls.length min_capacity) : Vector α).values.map _).isSome = true
    have h5 : min_capacity ≤ Nat.max ls.length min_capacity := Nat.le_max_right _ _
    have hmc : min_capacity = 5 := rfl
    obtain ⟨buf, hb⟩ := Option.isSome_iff_exists.mp
      (mkVector_isSome (α := α) (Nat.max ls.length min_capacity) (by omega))
    rw [hb]
    rfl

theorem wf_copyLoop (src : Vector α) (k : Nat) :
    ∀ v : Vector α, WfClaim v → WfClaim (copyLoop src v k) := by
  induction k with
  | zero =>
    intro v h
    exact h
  | succ n ih =>
    intro v h
    exact wf_push_back (copyLoop src v n) (readAt src n)

theorem wf_copyCtor (other : Vector α) : WfClaim (copyCtor other) :=
  wf_copyLoop other other.sz _ (wf_clear _ (wf_mkVector other.sz))

theorem wf_assign (v other : Vector α) (h : WfClaim v) : WfClaim (assign v other) :=
  wf_copyLoop other other.sz _ (wf_clear v h)

theorem wf_shrink_to_fit (v : Vector α) : WfClaim (shrink_to_fit v) :=
  wf_copyLoop _ _ _
    (wf_reserve _ _ ⟨Nat.le_refl 0, fun hpos => absurd hpos (Nat.lt_irrefl 0)⟩)

theorem wf_mkVectorDefault : WfClaim (mkVectorDefault : Vector α) :=
  wf_mkVector min_capacity

/-! Lemmas comparing `insert` at the end position with `push_back`. -/

theorem shiftUpLoop_self (c : Nat) (buf : List α) : shiftUpLoop c buf c = buf := by
  cases c with
  | zero => rfl
  | succ m =>
    simp only [shiftUpLoop]
    rw [if_neg (by omega)]

theorem insert_end_no_grow (v : Vector α) (x : α) (h : Inv v) (hroom : v.sz < v.max_sz) :
    (insert v ((v.sz : Nat) : Int) x).2 = push_back v x := by
  have heq := insert_ok_eq v x v.sz (Nat.le_refl _)
  have hng : ¬(v.values.isNone = true ∨ v.max_sz ≤ v.sz) := by
    rw [not_or]
    constructor
    · obtain ⟨buf, hbv, _⟩ := inv_some v h (by omega)
      rw [hbv]
      simp
    · omega
  have hgrow : growForInsert v = v := by
    unfold growForInsert
    rw [if_neg (by omega)]
  rw [heq, push_back_no_grow v x hng]
  show ({ growForInsert v with
      values := (growForInsert v).values.map
        (fun buf => (shiftUpLoop v.sz buf (growForInsert v).sz).set v.sz x)
      sz := (growForInsert v).sz + 1 } : Vector α) = _
  rw [hgrow]
  have hfun : v.values.map (fun buf => (shiftUpLoop v.sz buf v.sz).set v.sz x)
      = v.values.map (fun buf => buf.set v.sz x) := by
    cases v.values with
    | none => rfl
    | some buf =>
      show some ((shiftUpLoop v.sz buf v.sz).set v.sz x) = some (buf.set v.sz x)
      rw [shiftUpLoop_self]
  show ({ v with
      values := v.values.map (fun buf => (shiftUpLoop v.sz buf v.sz).set v.sz x)
      sz := v.sz + 1 } : Vector α) = _
  rw [hfun]

theorem growForInsert_max_full (v : Vector α) (hfull : v.sz = v.max_sz) :
    (growForInsert v).max_sz = if v.max_sz = 0 then min_capacity else v.max_sz * 2 := by
  have hmc : min_capacity = 5 := rfl
  unfold growForInsert
  rw [if_pos (by omega)]
  by_cases hmz : v.max_sz = 0
  · rw [if_neg (fun hne => hne hmz), if_pos hmz]
    apply reserve_alloc_max v min_capacity (by omega)
    intro hcon
    have := hcon.2
    omega
  · rw [if_pos hmz, if_neg hmz]
    apply reserve_alloc_max v (v.max_sz * 2) (by omega)
    intro hcon
    have := hcon.2
    omega

/-! Settlement of the specification claims. -/

/-- C1 (amended): for a full container (`size == capacity`), a successful
`insert` sets the capacity to `capacity * 2` when `capacity > 0`, and to the
default minimum capacity 5 only when `capacity == 0`; the claimed
`max(capacity * 2, 5)` floor is not applied when the capacity is positive
(a full container of capacity 1 ends with capacity 2, of capacity 2 with 4). -/
theorem claim_C1 (v : Vector α) (x : α) (p : Int) (r : Nat)
    (hfull : v.sz = v.max_sz) (hok : (insert v p x).1 = Except.ok r) :
    (insert v p x).2.max_sz = if v.max_sz = 0 then min_capacity else v.max_sz * 2 := by
  by_cases hg : p < 0 ∨ v.sz < p.toNat
  · exfalso
    unfold insert at hok
    rw [if_pos hg] at hok
    exact absurd hok (by simp)
  · have hple : p.toNat ≤ v.sz := by omega
    have hpcast : (p.toNat : Int) = p := Int.toNat_of_nonneg (by omega)
    have heq := insert_ok_eq v x p.toNat hple
    rw [hpcast] at heq
    rw [heq]
    show (growForInsert v).max_sz = _
    exact growForInsert_max_full v hfull

/-- C1 witness: a full container of capacity 5 doubles to 10 on `insert`. -/
theorem claim_C1_witness :
    ((mkVectorOfList [1, 2, 3, 4, 5] : Vector Nat).sz =
        (mkVectorOfList [1, 2, 3, 4, 5] : Vector Nat).max_sz ∧
      (insert (mkVectorOfList [1, 2, 3, 4, 5] : Vector Nat) 2 9).1 = Except.ok 2) ∧
    (insert (mkVectorOfList [1, 2, 3, 4, 5] : Vector Nat) 2 9).2.max_sz =
      if (mkVectorOfList [1, 2, 3, 4, 5] : Vector Nat).max_sz = 0 then min_capacity
      else (mkVectorOfList [1, 2, 3, 4, 5] : Vector Nat).max_sz * 2 :=
  ⟨⟨rfl, rfl⟩, claim_C1 (mkVectorOfList [1, 2, 3, 4, 5]) 9 2 2 rfl rfl⟩

/-- C1 counterexample: a reachable full container of capacity 1 (constructed
with `Vector(1)` and one `push_back`) has capacity 2 after a successful
`insert`, not `max(1 * 2, 5) = 5` as the claim states. -/
theorem claim_C1_counterexample :
    (push_back (mkVector 1 : Vector Nat) 7).sz =
      (push_back (mkVector 1 : Vector Nat) 7).max_sz ∧
    (insert (push_back (mkVector 1 : Vector Nat) 7) 1 9).1 = Except.ok 1 ∧
    (insert (push_back (mkVector 1 : Vector Nat) 7) 1 9).2.max_sz = 2 ∧
    max ((push_back (mkVector 1 : Vector Nat) 7).max_sz * 2) min_capacity = 5 ∧
    ¬(insert (push_back (mkVector 1 : Vector Nat) 7) 1 9).2.max_sz =
      max ((push_back (mkVector 1 : Vector Nat) 7).max_sz * 2) min_capacity := by
  refine ⟨rfl, rfl, rfl, rfl, ?_⟩
  decide

/-- C2: after any sequence of `push_back` calls on a freshly constructed empty
container, `size()` equals the number of calls, and the checked indexed read
at every `i < size()` returns the i-th pushed value. -/
theorem claim_C2 (n : Nat) (l : List α) :
    size (pushList (mkVector n : Vector α) l) = l.length ∧
    ∀ i (hi : i < l.length),
      (opIndex (pushList (mkVector n : Vector α) l) i).1 =
        Except.ok (l.get ⟨i, hi⟩) := by
  obtain ⟨hinv, hs, ht⟩ := pushList_spec l (mkVector n) (mkVector_inv n)
  have hsz : (pushList (mkVector n : Vector α) l).sz = l.length := by
    rw [hs, mkVector_sz]
    omega
  have htl : toList (pushList (mkVector n : Vector α) l) = l := by
    rw [ht, mkVector_toList, List.nil_append]
  refine ⟨hsz, fun i hi2 => ?_⟩
  have hread : readAt (pushList (mkVector n : Vector α) l) i = l.get ⟨i, hi2⟩ := by
    rw [← toList_getD _ i (by omega), htl, getD_eq_get l i default hi2]
  unfold opIndex
  rw [if_neg (by omega)]
  show Except.ok (readAt (pushList (mkVector n : Vector α) l) i) = _
  rw [hread]

/-- C2 witness: pushing `[3, 5]` into a default-constructed container gives
size 2, and reading index 1 yields 5. -/
theorem claim_C2_witness :
    size (pushList (mkVector min_capacity : Vector Nat) [3, 5]) = 2 ∧
    (opIndex (pushList (mkVector min_capacity : Vector Nat) [3, 5]) 1).1 = Except.ok 5 :=
  ⟨(claim_C2 min_capacity [3, 5]).1, (claim_C2 min_capacity [3, 5]).2 1 (by decide)⟩

/-- C3 (amended): inserting at the `end()` position always succeeds and
produces the same size and the same element sequence as `push_back`; when
there is spare capacity (`size < capacity`) the entire resulting state,
capacity included, is identical, but when growth triggers the capacities can
differ (`push_back` reserves `size + 5` while `insert` doubles the capacity,
or reserves 5 from capacity 0). -/
theorem claim_C3 (v : Vector α) (x : α) (h : Inv v) :
    (insert v (endOfs v) x).1 = Except.ok v.sz ∧
    size (insert v (endOfs v) x).2 = size (push_back v x) ∧
    toList (insert v (endOfs v) x).2 = toList (push_back v x) ∧
    (v.sz < v.max_sz → (insert v (endOfs v) x).2 = push_back v x) := by
  have hend : endOfs v = ((v.sz : Nat) : Int) := rfl
  rw [hend]
  obtain ⟨h1, hinv2, hsz2, hbef, hat, hsh⟩ := insert_spec v x v.sz h (Nat.le_refl _)
  obtain ⟨hpi, hps, hpr, hpl⟩ := push_back_spec v x h
  refine ⟨h1, ?_, ?_, fun hroom => insert_end_no_grow v x h hroom⟩
  · show (insert v ((v.sz : Nat) : Int) x).2.sz = (push_back v x).sz
    rw [hsz2, hps]
  · apply toList_eq_of_reads (push_back v x) _ hpi hinv2 (by rw [hsz2, hps])
    intro j hj
    rw [hps] at hj
    by_cases hlt : j < v.sz
    · rw [hbef j ?_, hpr j hlt]
      omega
    · have hje : j = v.sz := by omega
      subst hje
      rw [hat, hpl]

/-- C3 witness: on `[2, 4, 6]` (capacity 5), inserting 8 at `end()` succeeds
and coincides with `push_back 8`, including the capacity. -/
theorem claim_C3_witness :
    Inv (mkVectorOfList [2, 4, 6] : Vector Nat) ∧
    ((insert (mkVectorOfList [2, 4, 6] : Vector Nat)
          (endOfs (mkVectorOfList [2, 4, 6] : Vector Nat)) 8).1 =
        Except.ok (mkVectorOfList [2, 4, 6] : Vector Nat).sz ∧
      size (insert (mkVectorOfList [2, 4, 6] : Vector Nat)
          (endOfs (mkVectorOfList [2, 4, 6] : Vector Nat)) 8).2 =
        size (push_back (mkVectorOfList [2, 4, 6] : Vector Nat) 8) ∧
      toList (insert (mkVectorOfList [2, 4, 6] : Vector Nat)
          (endOfs (mkVectorOfList [2, 4, 6] : Vector Nat)) 8).2 =
        toList (push_back (mkVectorOfList [2, 4, 6] : Vector Nat) 8) ∧
      ((mkVectorOfList [2, 4, 6] : Vector Nat).sz <
          (mkVectorOfList [2, 4, 6] : Vector Nat).max_sz →
        (insert (mkVectorOfList [2, 4, 6] : Vector Nat)
            (endOfs (mkVectorOfList [2, 4, 6] : Vector Nat)) 8).2 =
          push_back (mkVectorOfList [2, 4, 6] : Vector Nat) 8)) :=
  ⟨by decide, claim_C3 (mkVectorOfList [2, 4, 6]) 8 (by decide)⟩

/-- C3 counterexample: on a reachable full container of size and capacity 10,
`insert` at `end()` succeeds but ends with capacity 20 while `push_back` ends
with capacity 15 — the resulting states differ in capacity, refuting the
claimed equivalence of the full container states. -/
theorem claim_C3_counterexample :
    (insert (mkVectorOfList [0, 1, 2, 3, 4, 5, 6, 7, 8, 9] : Vector Nat)
        (endOfs (mkVectorOfList [0, 1, 2, 3, 4, 5, 6, 7, 8, 9] : Vector Nat)) 99).1 =
      Except.ok 10 ∧
    (insert (mkVectorOfList [0, 1, 2, 3, 4, 5, 6, 7, 8, 9] : Vector Nat)
        (endOfs (mkVectorOfList [0, 1, 2, 3, 4, 5, 6, 7, 8, 9] : Vector Nat)) 99).2.max_sz = 20 ∧
    (push_back (mkVectorOfList [0, 1, 2, 3, 4, 5, 6, 7, 8, 9] : Vector Nat) 99).max_sz = 15 ∧
    ¬(insert (mkVectorOfList [0, 1, 2, 3, 4, 5, 6, 7, 8, 9] : Vector Nat)
        (endOfs (mkVectorOfList [0, 1, 2, 3, 4, 5, 6, 7, 8, 9] : Vector Nat)) 99).2 =
      push_back (mkVectorOfList [0, 1, 2, 3, 4, 5, 6, 7, 8, 9] : Vector Nat) 99 := by
  refine ⟨rfl, rfl, rfl, ?_⟩
  decide

/-- C4: on a non-empty container, `erase` at a valid offset `p < size()`
succeeds, returns the iterator at offset `p`, shifts the elements after `p`
one slot toward the beginning preserving their order, keeps the elements
before `p`, decrements the size, and the returned offset equals `end()` of
the resulting container exactly when the last element was erased. -/
theorem claim_C4 (v : Vector α) (p : Nat) (h : Inv v) (hp : p < v.sz) :
    (erase v (p : Int)).1 = Except.ok p ∧
    size (erase v (p : Int)).2 = v.sz - 1 ∧
    (∀ j, j < p → readAt (erase v (p : Int)).2 j = readAt v j) ∧
    (∀ j, p ≤ j → j < v.sz - 1 → readAt (erase v (p : Int)).2 j = readAt v (j + 1)) ∧
    (p = v.sz - 1 → (p : Int) = endOfs (erase v (p : Int)).2) := by
  obtain ⟨h1, hinv, hsz, hmax, hbef, hsh⟩ := erase_spec v p h hp
  refine ⟨h1, hsz, hbef, hsh, fun hlast => ?_⟩
  show (p : Int) = (((erase v (p : Int)).2.sz : Nat) : Int)
  rw [hsz, hlast]

/-- C4 witness: `erase(begin())` on `[1, 2, 4, 6]` returns offset 0, yields
`[2, 4, 6]` with size 3, and the returned iterator dereferences to 2. -/
theorem claim_C4_witness :
    (Inv (mkVectorOfList [1, 2, 4, 6] : Vector Nat) ∧
      0 < (mkVectorOfList [1, 2, 4, 6] : Vector Nat).sz) ∧
    (erase (mkVectorOfList [1, 2, 4, 6] : Vector Nat) ((0 : Nat) : Int)).1 = Except.ok 0 ∧
    size (erase (mkVectorOfList [1, 2, 4, 6] : Vector Nat) ((0 : Nat) : Int)).2 = 3 ∧
    toList (erase (mkVectorOfList [1, 2, 4, 6] : Vector Nat) ((0 : Nat) : Int)).2 = [2, 4, 6] ∧
    readAt (erase (mkVectorOfList [1, 2, 4, 6] : Vector Nat) ((0 : Nat) : Int)).2 0 = 2 :=
  ⟨⟨by decide, by decide⟩,
    (claim_C4 (mkVectorOfList [1, 2, 4, 6]) 0 (by decide) (by decide)).1, by decide, by decide,
    by decide⟩

/-- C5: `insert` at any valid offset `0 ≤ p ≤ size()` succeeds, returns an
iterator at offset `p` holding the new value, leaves the elements before `p`
unchanged, shifts the elements previously at offsets `≥ p` one slot toward
the end preserving their order, and increments the size. -/
theorem claim_C5 (v : Vector α) (x : α) (p : Nat) (h : Inv v) (hp : p ≤ v.sz) :
    (insert v (p : Int) x).1 = Except.ok p ∧
    size (insert v (p : Int) x).2 = v.sz + 1 ∧
    (∀ j, j < p → readAt (insert v (p : Int) x).2 j = readAt v j) ∧
    readAt (insert v (p : Int) x).2 p = x ∧
    (∀ j, p ≤ j → j < v.sz → readAt (insert v (p : Int) x).2 (j + 1) = readAt v j) := by
  obtain ⟨h1, hinv, hsz, hbef, hat, hsh⟩ := insert_spec v x p h hp
  exact ⟨h1, hsz, hbef, hat, hsh⟩

/-- C5 witness: `insert` at `begin()` on `[2, 4, 6]` with value 1 returns
offset 0 and yields `[1, 2, 4, 6]` with size 4. -/
theorem claim_C5_witness :
    (Inv (mkVectorOfList [2, 4, 6] : Vector Nat) ∧
      0 ≤ (mkVectorOfList [2, 4, 6] : Vector Nat).sz) ∧
    (insert (mkVectorOfList [2, 4, 6] : Vector Nat) ((0 : Nat) : Int) 1).1 = Except.ok 0 ∧
    size (insert (mkVectorOfList [2, 4, 6] : Vector Nat) ((0 : Nat) : Int) 1).2 = 4 ∧
    toList (insert (mkVectorOfList [2, 4, 6] : Vector Nat) ((0 : Nat) : Int) 1).2 = [1, 2, 4, 6] ∧
    readAt (insert (mkVectorOfList [2, 4, 6] : Vector Nat) ((0 : Nat) : Int) 1).2 0 = 1 :=
  ⟨⟨by decide, by decide⟩,
    (claim_C5 (mkVectorOfList [2, 4, 6]) 1 0 (by decide) (by decide)).1, by decide, by decide,
    (claim_C5 (mkVectorOfList [2, 4, 6]) 1 0 (by decide) (by decide)).2.2.2.1⟩

/-- C6: `shrink_to_fit` preserves the element sequence, and afterwards the
capacity equals the size; on an empty container the capacity becomes 0. -/
theorem claim_C6 (v : Vector α) (h : Inv v) :
    toList (shrink_to_fit v) = toList v ∧
    capacity (shrink_to_fit v) = size (shrink_to_fit v) ∧
    (size v = 0 → capacity (shrink_to_fit v) = 0) := by
  obtain ⟨hinv, hsz, hmax, htl⟩ := shrink_to_fit_spec v h
  refine ⟨htl, ?_, fun hz => ?_⟩
  · show (shrink_to_fit v).max_sz = (shrink_to_fit v).sz
    rw [hmax, hsz]
  · show (shrink_to_fit v).max_sz = 0
    rw [hmax]
    exact hz

/-- C6 witness: a container of size 3 and capacity 7 shrinks to capacity 3
with the same contents. -/
theorem claim_C6_witness :
    Inv (pushList (mkVector 2 : Vector Nat) [1, 2, 3]) ∧
    toList (shrink_to_fit (pushList (mkVector 2 : Vector Nat) [1, 2, 3])) = [1, 2, 3] ∧
    capacity (pushList (mkVector 2 : Vector Nat) [1, 2, 3]) = 7 ∧
    capacity (shrink_to_fit (pushList (mkVector 2 : Vector Nat) [1, 2, 3])) =
      size (shrink_to_fit (pushList (mkVector 2 : Vector Nat) [1, 2, 3])) ∧
    capacity (shrink_to_fit (pushList (mkVector 2 : Vector Nat) [1, 2, 3])) = 3 :=
  ⟨by decide, by decide, by decide,
    (claim_C6 (pushList (mkVector 2) [1, 2, 3]) (by decide)).2.1, by decide⟩

/-- C7: whenever `pop_back`, the checked indexed access, `insert` or `erase`
reports an error, the post-call container state is exactly the pre-call
state — size, capacity and element sequence included. -/
theorem claim_C7 (v : Vector α) (i : Nat) (p : Int) (x : α) :
    (∀ e, (pop_back v).1 = Except.error e → (pop_back v).2 = v) ∧
    (∀ e, (opIndex v i).1 = Except.error e → (opIndex v i).2 = v) ∧
    (∀ e, (insert v p x).1 = Except.error e → (insert v p x).2 = v) ∧
    (∀ e, (erase v p).1 = Except.error e → (erase v p).2 = v) := by
  refine ⟨fun e he => ?_, fun e he => ?_, fun e he => ?_, fun e he => ?_⟩
  · by_cases hc : empty v = true
    · unfold pop_back
      rw [if_pos hc]
    · unfold pop_back at he
      rw [if_neg hc] at he
      simp at he
  · by_cases hc : v.sz ≤ i
    · unfold opIndex
      rw [if_pos hc]
    · unfold opIndex at he
      rw [if_neg hc] at he
      simp at he
  · by_cases hc : p < 0 ∨ v.sz < p.toNat
    · unfold insert
      rw [if_pos hc]
    · unfold insert at he
      rw [if_neg hc] at he
      simp at he
  · by_cases hc : p < 0 ∨ v.sz ≤ p.toNat
    · unfold erase
      rw [if_pos hc]
    · unfold erase at he
      rw [if_neg hc] at he
      simp at he

/-- C7 witness: each of the four operations, called so that it fails on a
concrete container, reports the documented error and returns the container
unchanged. -/
theorem claim_C7_witness :
    (pop_back (mkVector 0 : Vector Nat)).1 = Except.error VecError.EmptyContainerError ∧
    (pop_back (mkVector 0 : Vector Nat)).2 = mkVector 0 ∧
    (opIndex (mkVector 0 : Vector Nat) 0).1 = Except.error VecError.IndexOutOfRangeError ∧
    (opIndex (mkVector 0 : Vector Nat) 0).2 = mkVector 0 ∧
    (insert (mkVector 0 : Vector Nat) 5 3).1 = Except.error VecError.IteratorOutOfBoundsError ∧
    (insert (mkVector 0 : Vector Nat) 5 3).2 = mkVector 0 ∧
    (erase (mkVector 0 : Vector Nat) 5).1 = Except.error VecError.IteratorOutOfBoundsError ∧
    (erase (mkVector 0 : Vector Nat) 5).2 = mkVector 0 :=
  ⟨rfl, (claim_C7 (mkVector 0) 0 5 3).1 VecError.EmptyContainerError rfl,
    rfl, (claim_C7 (mkVector 0) 0 5 3).2.1 VecError.IndexOutOfRangeError rfl,
    rfl, (claim_C7 (mkVector 0) 0 5 3).2.2.1 VecError.IteratorOutOfBoundsError rfl,
    rfl, (claim_C7 (mkVector 0) 0 5 3).2.2.2 VecError.IteratorOutOfBoundsError rfl⟩

/-- C8: `pop_back` fails with `EmptyContainerError` exactly when `size() == 0`,
decrements the size by one on a non-empty container, and never changes the
capacity. -/
theorem claim_C8 (v : Vector α) :
    ((pop_back v).1 = Except.error VecError.EmptyContainerError ↔ size v = 0) ∧
    (size v ≠ 0 → size (pop_back v).2 = size v - 1) ∧
    capacity (pop_back v).2 = capacity v := by
  by_cases hc : v.sz = 0
  · have he : empty v = true := by
      rw [empty, hc]
      rfl
    refine ⟨⟨fun _ => hc, fun _ => ?_⟩, fun hne => absurd hc hne, ?_⟩
    · unfold pop_back
      rw [if_pos he]
    · show (pop_back v).2.max_sz = v.max_sz
      unfold pop_back
      rw [if_pos he]
  · have he : ¬ empty v = true := by
      simp [empty]
      exact hc
    refine ⟨⟨fun habs => ?_, fun hz => absurd hz hc⟩, fun _ => ?_, ?_⟩
    · unfold pop_back at habs
      rw [if_neg he] at habs
      simp at habs
    · show (pop_back v).2.sz = v.sz - 1
      unfold pop_back
      rw [if_neg he]
    · show (pop_back v).2.max_sz = v.max_sz
      unfold pop_back
      rw [if_neg he]

/-- C8 witness: the characterization instantiated on a non-empty container of
size 1 and capacity 2. -/
theorem claim_C8_witness :
    ((pop_back (pushList (mkVector 2 : Vector Nat) [4])).1 =
        Except.error VecError.EmptyContainerError ↔
      size (pushList (mkVector 2 : Vector Nat) [4]) = 0) ∧
    (size (pushList (mkVector 2 : Vector Nat) [4]) ≠ 0 →
      size (pop_back (pushList (mkVector 2 : Vector Nat) [4])).2 =
        size (pushList (mkVector 2 : Vector Nat) [4]) - 1) ∧
    capacity (pop_back (pushList (mkVector 2 : Vector Nat) [4])).2 =
      capacity (pushList (mkVector 2 : Vector Nat) [4]) :=
  claim_C8 (pushList (mkVector 2) [4])

/-- C9: every public operation, started from any state satisfying the
invariant, yields a state satisfying the invariant `size ≤ capacity` together
with "the buffer is non-null whenever the capacity is positive" (the
constructors need no assumption at all). -/
theorem claim_C9 (v w : Vector α) (h : WfClaim v) (n : Nat) (x : α) (p : Int) (ls : List α) :
    WfClaim (mkVector n : Vector α) ∧ WfClaim (mkVectorOfList ls) ∧
    WfClaim (mkVectorDefault : Vector α) ∧ WfClaim (copyCtor w) ∧
    WfClaim (assign v w) ∧ WfClaim (clear v) ∧ WfClaim (reserve v n) ∧
    WfClaim (shrink_to_fit v) ∧ WfClaim (push_back v x) ∧
    WfClaim (pop_back v).2 ∧ WfClaim (insert v p x).2 ∧ WfClaim (erase v p).2 :=
  ⟨wf_mkVector n, wf_mkVectorOfList ls, wf_mkVectorDefault, wf_copyCtor w,
    wf_assign v w h, wf_clear v h, wf_reserve v n h, wf_shrink_to_fit v,
    wf_push_back v x, wf_pop_back v h, wf_insert v p x h, wf_erase v p h⟩

/-- C9 witness: the invariant, instantiated on a concrete starting state, is
preserved across a growing `insert` and a `shrink_to_fit`. -/
theorem claim_C9_witness :
    WfClaim (mkVectorOfList [1, 2, 3, 4, 5] : Vector Nat) ∧
    WfClaim (insert (mkVectorOfList [1, 2, 3, 4, 5] : Vector Nat) 1 7).2 ∧
    WfClaim (shrink_to_fit (mkVectorOfList [1, 2, 3, 4, 5] : Vector Nat)) :=
  ⟨by decide,
    (claim_C9 (mkVectorOfList [1, 2, 3, 4, 5]) (mkVector 3) (by decide) 4 7 1 [9]).2.2.2.2.2.2.2.2.2.2.1,
    (claim_C9 (mkVectorOfList [1, 2, 3, 4, 5]) (mkVector 3) (by decide) 4 7 1 [9]).2.2.2.2.2.2.2.1⟩

/-- C10: the copy of an empty container has size 0, capacity 0 and a null
buffer: the default minimum capacity 5 is not applied, because the copy
constructor delegates to `Vector(0)` and `reserve(0)` is a no-op. -/
theorem claim_C10 (v : Vector α) (h : size v = 0) :
    copyCtor v = { sz := 0, max_sz := 0, values := none } ∧
    size (copyCtor v) = 0 ∧ capacity (copyCtor v) = 0 ∧ (copyCtor v).values = none := by
  have hz : v.sz = 0 := h
  have heq : copyCtor v = { sz := 0, max_sz := 0, values := none } := by
    unfold copyCtor
    rw [hz]
    show clear (mkVector 0 : Vector α) = _
    rw [mkVector_zero]
    rfl
  exact ⟨heq, by rw [heq]; rfl, by rw [heq]; rfl, by rw [heq]⟩

/-- C10 witness: the copy of an empty container of capacity 7 is the
size-0, capacity-0, null-buffer state. -/
theorem claim_C10_witness :
    size (mkVector 7 : Vector Nat) = 0 ∧
    copyCtor (mkVector 7 : Vector Nat) = { sz := 0, max_sz := 0, values := none } ∧
    capacity (copyCtor (mkVector 7 : Vector Nat)) = 0 :=
  ⟨rfl, (claim_C10 (mkVector 7) rfl).1, (claim_C10 (mkVector 7) rfl).2.2.1⟩

end CppVector
